import Mathlib

/-
Shallow embedding of the ring-search core of `catchment_tools.py`:
coordinate rounding (`base_round`), CCAR sampling with sentinel
normalization (`read_ccar`), ring/square enumeration (`read_ccar_square`),
the two searches (`largest_ccar_close_by`, `closest_ccar_above_val`),
the `DEPTH_CHECK_MAP` table and the river-snapping step of
`CatchmentData.__init__`.

Modelling conventions:
* `base_round` / `roundHalfEven` model the source's
  `base * round(x / base)` on exact rationals, with the numeric
  runtime's round-half-to-even semantics.
* The searches round their input coordinates to multiples of 50 first
  and from then on only ever work with integer coordinates, so the
  search layer is embedded over `ℤ`: the raster sampler is an arbitrary
  function `grid : ℤ → ℤ → ℤ` giving the raw value stored at a point,
  and `base_round_50` is the integer restriction of `base_round · 50`
  (the theorem `base_round_50_agrees` proves the two agree).
* The source stores `distance = sqrt((Δe)^2 + (Δn)^2)` and only ever
  compares distances with `<`, `==`, `<=`.  Since `sqrt` is strictly
  monotone on nonnegative reals, each of those comparisons agrees with
  the same comparison of the squared distances, so the embedding stores
  the exact squared distance in the field `distSq`.
* `raise UserWarning` is modelled as `Except.error` of the message.
-/

/-- Round-half-to-even (banker's rounding) on rationals: the semantics of
the numeric runtime's default `round`, as used by `base_round`. -/
def roundHalfEven (x : ℚ) : ℤ :=
  let f := ⌊x⌋
  let r := x - f
  if r < 1/2 then f
  else if 1/2 < r then f + 1
  else if f % 2 = 0 then f else f + 1

/-- `base_round(x, base)` from the source: `base * round(x / base)`. -/
def base_round (x base : ℚ) : ℚ :=
  base * roundHalfEven (x / base)

/-- Round-half-to-even of the exact fraction `x / d` (for `d > 0`),
written with integer euclidean division so that it computes inside `ℤ`;
`round_half_even_div_eq` proves it equal to `roundHalfEven` of the
rational quotient. -/
def round_half_even_div (x d : ℤ) : ℤ :=
  let f := x / d
  let r := x % d
  if 2 * r < d then f
  else if d < 2 * r then f + 1
  else if f % 2 = 0 then f else f + 1

/-- The source's `base_round(x, 50)` on an integer raw coordinate. -/
def base_round_50 (x : ℤ) : ℤ :=
  50 * round_half_even_div x 50

/-- The raw "no data" sentinel of the raster (`2147483647`). -/
def NODATA_RAW : ℤ := 2147483647

/-- `read_ccar(easting, northing)`: round both coordinates to the closest
50, sample the raster there, and normalize the sentinel to `-999`. -/
def read_ccar (grid : ℤ → ℤ → ℤ) (easting northing : ℤ) : ℤ :=
  let e := base_round_50 easting
  let n := base_round_50 northing
  let val := grid e n
  if val = NODATA_RAW then -999 else val

/-- One `cell_dict` of the source: absolute coordinates, the sampled
(normalized) value, and the squared Euclidean distance from the search
center (see the header note on `distSq`). -/
structure Cell where
  easting : ℤ
  northing : ℤ
  ccar : ℤ
  distSq : ℤ
deriving DecidableEq

/-- The integers `a, a+1, …, b-1`: the embedding of `range(a, b)`. -/
def intRange (a b : ℤ) : List ℤ :=
  (List.range (b - a).toNat).map fun i : ℕ => a + (i : ℤ)

/-- Build the `cell_dict` for the point `(te, tn)` scanned around the
center `(easting, northing)` in `read_ccar_square`. -/
def mkCell (grid : ℤ → ℤ → ℤ) (easting northing te tn : ℤ) : Cell :=
  ⟨te, tn, read_ccar grid te tn, (te - easting) ^ 2 + (tn - northing) ^ 2⟩

/-- `read_ccar_square(easting, northing, depth, border_only)`: the cells
around the given center at the given depth, in the source's enumeration
order — the `e_depth` columns first (each by increasing `n_depth`), then,
for `border_only`, the two partial rows at `n_depth = ±depth` with the
corners left out.  `depth = 0` is the center cell alone; a negative
`depth` yields the empty list, as the source's `range` calls do. -/
def read_ccar_square (grid : ℤ → ℤ → ℤ) (easting northing : ℤ)
    (depth : ℤ) (border_only : Bool) : List Cell :=
  if depth = 0 then
    [⟨easting, northing, read_ccar grid easting northing, 0⟩]
  else
    let e_depth_range : List ℤ :=
      if border_only then [-depth, depth] else intRange (-depth) (depth + 1)
    let cols := e_depth_range.flatMap fun ed =>
      (intRange (-depth) (depth + 1)).map fun nd =>
        mkCell grid easting northing (easting + 50 * ed) (northing + 50 * nd)
    let rows : List Cell :=
      if border_only then
        ([-depth, depth] : List ℤ).flatMap fun nd =>
          (intRange (-depth + 1) depth).map fun ed =>
            mkCell grid easting northing (easting + 50 * ed) (northing + 50 * nd)
      else []
    cols ++ rows

/-- The `best_cell` update step of the scan loop in
`largest_ccar_close_by`: a strictly larger value always replaces; an
equal value replaces only at strictly smaller distance. -/
def largest_step (best : Option Cell) (c : Cell) : Option Cell :=
  match best with
  | none => some c
  | some b =>
    if b.ccar ≤ c.ccar then
      if c.ccar = b.ccar ∧ b.distSq ≤ c.distSq then some b
      else some c
    else some b

/-- `largest_ccar_close_by(easting, northing, depth)`: scan the full
square at the given depth around the rounded center for the best cell. -/
def largest_ccar_close_by (grid : ℤ → ℤ → ℤ) (easting northing : ℤ)
    (depth : ℤ) : Option Cell :=
  let e := base_round_50 easting
  let n := base_round_50 northing
  (read_ccar_square grid e n depth false).foldl largest_step none

/-- The `DEPTH_CHECK_MAP` dict.  Its keys in the source are exactly
`0..20` (with `20 ↦ 0`); the function is totalized with `0` past `19`,
and every theorem below only consults it for depths `≤ 20`. -/
def DEPTH_CHECK_MAP : ℕ → ℕ
  | 0 => 0 | 1 => 0 | 2 => 0 | 3 => 1 | 4 => 1 | 5 => 2 | 6 => 2 | 7 => 2
  | 8 => 3 | 9 => 3 | 10 => 4 | 11 => 4 | 12 => 4 | 13 => 5 | 14 => 5
  | 15 => 5 | 16 => 4 | 17 => 3 | 18 => 2 | 19 => 1 | _ => 0

/-- Body of the inner `for cell_dict in cell_dicts` loop of
`closest_ccar_above_val`, acting on the state
(`best_cell`, `extra_depths`).  Faithful detail: the `continue` taken on
the equal-distance / value-no-larger path skips the
`extra_depths = DEPTH_CHECK_MAP[depth]` line, so that path (and only
that qualifying path) leaves `extra_depths` unchanged. -/
def scan_cell (min_ccar : ℤ) (depth : ℕ)
    (s : Option Cell × Option ℕ) (c : Cell) : Option Cell × Option ℕ :=
  if min_ccar ≤ c.ccar then
    match s.1 with
    | none => (some c, some (DEPTH_CHECK_MAP depth))
    | some b =>
      if c.distSq ≤ b.distSq then
        if c.distSq = b.distSq ∧ c.ccar ≤ b.ccar then
          (some b, s.2)
        else (some c, some (DEPTH_CHECK_MAP depth))
      else (some b, some (DEPTH_CHECK_MAP depth))
  else s

/-- The `for depth in range(0, max_depths + 1)` loop of
`closest_ccar_above_val`, over the list of remaining depths, returning
the final (`best_cell`, `extra_depths`) state.  The `break` on
`extra_depths == 0` and the decrement of a committed counter mirror the
source. -/
def closest_loop (grid : ℤ → ℤ → ℤ) (easting northing : ℤ) (min_ccar : ℤ) :
    List ℕ → Option Cell × Option ℕ → Option Cell × Option ℕ
  | [], s => s
  | d :: rest, s =>
    if s.2 = some 0 then s
    else
      let extra := s.2.map fun k => k - 1
      let cells := read_ccar_square grid easting northing (d : ℤ) true
      closest_loop grid easting northing min_ccar rest
        (cells.foldl (scan_cell min_ccar d) (s.1, extra))

/-- The depth list `range(0, max_depths + 1)` (empty when
`max_depths < 0`). -/
def depthsList (max_depths : ℤ) : List ℕ :=
  List.range (max_depths + 1).toNat

/-- `closest_ccar_above_val(easting, northing, min_ccar, max_depths)`:
expand rings around the rounded center, looking for the closest cell
whose value is at least `min_ccar`. -/
def closest_ccar_above_val (grid : ℤ → ℤ → ℤ) (easting northing : ℤ)
    (min_ccar : ℤ) (max_depths : ℤ) : Option Cell :=
  let e := base_round_50 easting
  let n := base_round_50 northing
  (closest_loop grid e n min_ccar (depthsList max_depths) (none, none)).1

/-- The cells read, in order, by the loop of `closest_ccar_above_val`:
the concatenation of the rings `read_ccar_square(…, d, border_only=True)`
for the depths the loop actually visits.  The control flow (the `break`
test, the decrement, and the state threading) is exactly that of
`closest_loop`. -/
def closest_scanned_loop (grid : ℤ → ℤ → ℤ) (easting northing : ℤ)
    (min_ccar : ℤ) : List ℕ → Option Cell × Option ℕ → List Cell
  | [], _ => []
  | d :: rest, s =>
    if s.2 = some 0 then []
    else
      let extra := s.2.map fun k => k - 1
      let cells := read_ccar_square grid easting northing (d : ℤ) true
      cells ++ closest_scanned_loop grid easting northing min_ccar rest
        (cells.foldl (scan_cell min_ccar d) (s.1, extra))

/-- All cells sampled during `closest_ccar_above_val(easting, northing,
min_ccar, max_depths)`, in scan order. -/
def closest_scanned (grid : ℤ → ℤ → ℤ) (easting northing : ℤ)
    (min_ccar : ℤ) (max_depths : ℤ) : List Cell :=
  let e := base_round_50 easting
  let n := base_round_50 northing
  closest_scanned_loop grid e n min_ccar (depthsList max_depths) (none, none)

/-- `CatchmentData._river_snapping`: snap the raw coordinates via the
nearest-qualifying search with `min_ccar = 200`, `max_depths = 20`; a
`None` result becomes a raised `UserWarning`, modelled as `.error`. -/
def river_snapping (grid : ℤ → ℤ → ℤ) (easting_raw northing_raw : ℤ) :
    Except String (ℤ × ℤ) :=
  match closest_ccar_above_val grid easting_raw northing_raw 200 20 with
  | none => .error "No cell found close enough for river snapping"
  | some c => .ok (c.easting, c.northing)

/-- The coordinate initialization of `CatchmentData.__init__`: with
`snap_to_river` the instance coordinates come from `_river_snapping`,
otherwise they are the raw inputs. -/
def catchment_init_coords (grid : ℤ → ℤ → ℤ) (easting northing : ℤ)
    (snap_to_river : Bool) : Except String (ℤ × ℤ) :=
  if snap_to_river then river_snapping grid easting northing
  else .ok (easting, northing)

/-- `qualifies min_ccar c`: the cell passes the `min_ccar` test of
`closest_ccar_above_val`. -/
def qualifies (min_ccar : ℤ) (c : Cell) : Bool :=
  decide (min_ccar ≤ c.ccar)

/-- The selection key claimed for `closest_ccar_above_val`: lexicographic
(squared distance, negated value).  `List.argmin` keeps the earliest list
element on key ties, which is exactly the claimed enumeration-position
tie-break. -/
def closestKey (c : Cell) : ℤ ×ₗ ℤ :=
  toLex (c.distSq, -c.ccar)

/-- The selection key claimed for `largest_ccar_close_by`: lexicographic
(negated value, squared distance), again with `List.argmin`'s
first-on-ties behaviour as the enumeration-position tie-break. -/
def largestKey (c : Cell) : ℤ ×ₗ ℤ :=
  toLex (-c.ccar, c.distSq)

/-- The `(easting, northing)` points of a list of cells. -/
def pointsOf (l : List Cell) : List (ℤ × ℤ) :=
  l.map fun c => (c.easting, c.northing)

/-- The affine placement of a grid offset around the center `(e, n)`. -/
def offPoint (e n : ℤ) (q : ℤ × ℤ) : ℤ × ℤ :=
  (e + 50 * q.1, n + 50 * q.2)

/-- The `(Δe, Δn)` offsets enumerated by `read_ccar_square` with
`border_only = True` at depth `k`, in enumeration order. -/
def ringOff (k : ℕ) : List (ℤ × ℤ) :=
  if k = 0 then [(0, 0)]
  else
    ([-(k : ℤ), k]).flatMap
        (fun a => (intRange (-(k : ℤ)) (k + 1)).map fun b => (a, b)) ++
      ([-(k : ℤ), k]).flatMap
        (fun b => (intRange (-(k : ℤ) + 1) k).map fun a => (a, b))

/-- The `(Δe, Δn)` offsets enumerated by `read_ccar_square` with
`border_only = False` at depth `d`, in enumeration order. -/
def fullOff (d : ℕ) : List (ℤ × ℤ) :=
  (intRange (-(d : ℤ)) (d + 1)).flatMap
    fun a => (intRange (-(d : ℤ)) (d + 1)).map fun b => (a, b)

/-- The offsets of the rings `0..d` concatenated. -/
def unionOff (d : ℕ) : List (ℤ × ℤ) :=
  (List.range (d + 1)).flatMap ringOff

/-- Concrete raster for the spec's end-to-end scenario: value 250 at
(1050, 2050), value 300 at (1000, 1950), value 50 at (1000, 2050), and 0
everywhere else. -/
def grid_scenario : ℤ → ℤ → ℤ := fun e n =>
  if e = 1050 ∧ n = 2050 then 250
  else if e = 1000 ∧ n = 1950 then 300
  else if e = 1000 ∧ n = 2050 then 50
  else 0

/-- Concrete raster exercising the extension counter: value 100 at
(0, 150) (ring 3 of center (0,0)) and at (0, 200) (ring 4, strictly
farther than (0, 150)), and 0 everywhere else. -/
def grid_reset : ℤ → ℤ → ℤ := fun e n =>
  if e = 0 ∧ n = 150 then 100
  else if e = 0 ∧ n = 200 then 100
  else 0

/-- Concrete raster holding the raw NODATA sentinel everywhere. -/
def grid_nodata : ℤ → ℤ → ℤ := fun _ _ => 2147483647

/-- Concrete raster with constant value 10. -/
def grid_const10 : ℤ → ℤ → ℤ := fun _ _ => 10

/-- Concrete raster with constant value 0. -/
def grid_zero : ℤ → ℤ → ℤ := fun _ _ => 0

/-- Concrete raster with constant value 300. -/
def grid_const300 : ℤ → ℤ → ℤ := fun _ _ => 300

theorem roundHalfEven_intCast (k : ℤ) : roundHalfEven (k : ℚ) = k := by
  unfold roundHalfEven
  norm_num

/-- The integer rounding used by the search layer agrees with
`roundHalfEven` of the exact rational quotient. -/
theorem round_half_even_div_eq (x : ℤ) (d : ℕ) (hd : 0 < d) :
    round_half_even_div x d = roundHalfEven ((x : ℚ) / d) := by
  have hdq : (0 : ℚ) < d := by exact_mod_cast hd
  have hfloor : ⌊(x : ℚ) / d⌋ = x / (d : ℤ) := Rat.floor_intCast_div_natCast x d
  have hfrac : (x : ℚ) / d - ((x / (d : ℤ) : ℤ) : ℚ) = ((x % d : ℤ) : ℚ) / d := by
    rw [Int.emod_def]
    push_cast
    field_simp
  have h1 : (((x % d : ℤ) : ℚ) / d < 1 / 2) ↔ 2 * (x % (d : ℤ)) < d := by
    rw [div_lt_div_iff₀ hdq (by norm_num)]
    constructor
    · intro h
      have : ((2 * (x % (d : ℤ)) : ℤ) : ℚ) < ((d : ℤ) : ℚ) := by push_cast; linarith
      exact_mod_cast this
    · intro h
      have : ((2 * (x % (d : ℤ)) : ℤ) : ℚ) < ((d : ℤ) : ℚ) := by exact_mod_cast h
      push_cast at this
      linarith
  have h2 : (1 / 2 < ((x % d : ℤ) : ℚ) / d) ↔ (d : ℤ) < 2 * (x % (d : ℤ)) := by
    rw [div_lt_div_iff₀ (by norm_num) hdq]
    constructor
    · intro h
      have : ((d : ℤ) : ℚ) < ((2 * (x % (d : ℤ)) : ℤ) : ℚ) := by push_cast; linarith
      exact_mod_cast this
    · intro h
      have : ((d : ℤ) : ℚ) < ((2 * (x % (d : ℤ)) : ℤ) : ℚ) := by exact_mod_cast h
      push_cast at this
      linarith
  unfold round_half_even_div roundHalfEven
  simp only [hfloor, hfrac, h1, h2]

/-- `base_round_50` is the source's `base_round(·, 50)` restricted to
integer raw coordinates. -/
theorem base_round_50_agrees (x : ℤ) :
    ((base_round_50 x : ℤ) : ℚ) = base_round (x : ℚ) 50 := by
  have h := round_half_even_div_eq x 50 (by norm_num)
  push_cast at h
  unfold base_round_50 base_round
  push_cast
  rw [h]

/-- C8: grid rounding is idempotent: rounding an already-rounded
coordinate to the same base 50 leaves it unchanged. -/
theorem base_round_idempotent (x : ℚ) :
    base_round (base_round x 50) 50 = base_round x 50 := by
  unfold base_round
  rw [mul_div_cancel_left₀ _ (by norm_num : (50 : ℚ) ≠ 0), roundHalfEven_intCast]


theorem intRange_eq_nil {a b : ℤ} (h : b ≤ a) : intRange a b = [] := by
  simp [intRange, Int.toNat_of_nonpos (by omega : b - a ≤ 0)]

theorem read_ccar_square_neg {grid : ℤ → ℤ → ℤ} {e n d : ℤ}
    (hd : d < 0) (b : Bool) : read_ccar_square grid e n d b = [] := by
  unfold read_ccar_square
  rw [if_neg (by omega : ¬d = 0)]
  cases b <;>
    simp [intRange_eq_nil (by omega : d + 1 ≤ -d),
      intRange_eq_nil (by omega : d ≤ -d + 1)]

/-- C9: the `DEPTH_CHECK_MAP` table never drops by more than one from a
depth to the next (`DEPTH_CHECK_MAP[d+1] ≥ DEPTH_CHECK_MAP[d] - 1` for
`d = 0..19`); consequently the committed last ring index
`depth + DEPTH_CHECK_MAP[depth]` is monotone over `0..20`, so a reset of
the remaining-extra counter at a deeper ring can never decrease the last
ring the search is committed to scan. -/
theorem depth_check_map_committed_last_monotone :
    (∀ d : ℕ, d < 20 → DEPTH_CHECK_MAP d ≤ DEPTH_CHECK_MAP (d + 1) + 1) ∧
    (∀ d : ℕ, ∀ d2 : ℕ, d ≤ d2 → d2 ≤ 20 →
      d + DEPTH_CHECK_MAP d ≤ d2 + DEPTH_CHECK_MAP d2) := by
  constructor
  · decide
  · intro d d2 h1 h2
    revert h1
    revert d
    revert h2
    revert d2
    decide

/-- Witness for C9's theorem at concrete depths. -/
theorem depth_check_map_committed_last_monotone_witness :
    DEPTH_CHECK_MAP 19 ≤ DEPTH_CHECK_MAP 20 + 1 ∧
    3 + DEPTH_CHECK_MAP 3 ≤ 15 + DEPTH_CHECK_MAP 15 :=
  ⟨depth_check_map_committed_last_monotone.1 19 (by decide),
   depth_check_map_committed_last_monotone.2 3 15 (by decide) (by decide)⟩

/-- C7 counterexample: with the non-positive bounds `max_depths = 0` and
`depth = 0` neither search rejects the call: both sample the center cell
and return a normal result that depends on the sampled value (compare
the two rasters), so no `InvalidConfiguration`-style rejection happens
before sampling. -/
theorem no_invalid_configuration_rejection_cex :
    closest_ccar_above_val grid_const10 0 0 10 0 = some ⟨0, 0, 10, 0⟩ ∧
    closest_ccar_above_val grid_zero 0 0 10 0 = none ∧
    largest_ccar_close_by grid_const10 0 0 0 = some ⟨0, 0, 10, 0⟩ ∧
    largest_ccar_close_by grid_zero 0 0 0 = some ⟨0, 0, 0, 0⟩ := by
  decide

/-- C7 amended: the searches perform no configuration validation and
have no error outcome.  A negative `max_depths` / `depth` makes the
depth `range` empty, so `closest_ccar_above_val` returns `None` without
sampling any cell and `largest_ccar_close_by` likewise returns `None`;
`max_depths = 0` / `depth = 0` (also non-positive) scan the center cell
normally. -/
theorem negative_depth_returns_none_without_sampling
    (grid : ℤ → ℤ → ℤ) (e n m md dp : ℤ) (hmd : md < 0) (hdp : dp < 0) :
    closest_ccar_above_val grid e n m md = none ∧
    closest_scanned grid e n m md = [] ∧
    largest_ccar_close_by grid e n dp = none := by
  have hlist : depthsList md = [] := by
    simp [depthsList, Int.toNat_of_nonpos (by omega : md + 1 ≤ 0)]
  refine ⟨?_, ?_, ?_⟩
  · simp [closest_ccar_above_val, hlist, closest_loop]
  · simp [closest_scanned, hlist, closest_scanned_loop]
  · simp [largest_ccar_close_by, read_ccar_square_neg hdp]

/-- Witness for the C7 amended theorem at `max_depths = depth = -1`. -/
theorem negative_depth_returns_none_without_sampling_witness :
    closest_ccar_above_val grid_zero 0 0 10 (-1) = none ∧
    closest_scanned grid_zero 0 0 10 (-1) = [] ∧
    largest_ccar_close_by grid_zero 0 0 (-1) = none :=
  negative_depth_returns_none_without_sampling grid_zero 0 0 10 (-1) (-1)
    (by norm_num) (by norm_num)

/-- C10: in the `snap_to_river` branch of `CatchmentData.__init__`, a
not-found outcome (`None`) of
`closest_ccar_above_val(…, min_ccar=200, max_depths=20)` becomes a
raised `UserWarning` (modelled as `.error`), and otherwise the
instance coordinates are exactly the returned cell's coordinates. -/
theorem river_snapping_not_found_raises (grid : ℤ → ℤ → ℤ) (e n : ℤ) :
    (closest_ccar_above_val grid e n 200 20 = none →
      catchment_init_coords grid e n true =
        .error "No cell found close enough for river snapping") ∧
    (∀ c, closest_ccar_above_val grid e n 200 20 = some c →
      catchment_init_coords grid e n true = .ok (c.easting, c.northing)) := by
  constructor
  · intro h
    simp [catchment_init_coords, river_snapping, h]
  · intro c h
    simp [catchment_init_coords, river_snapping, h]

set_option maxRecDepth 100000 in
/-- Witness for C10 at concrete rasters: an all-zero raster gives the
error outcome; a constant-300 raster snaps (0, 0) to the center cell. -/
theorem river_snapping_not_found_raises_witness :
    catchment_init_coords grid_zero 0 0 true =
      .error "No cell found close enough for river snapping" ∧
    catchment_init_coords grid_const300 0 0 true = .ok (0, 0) :=
  ⟨(river_snapping_not_found_raises grid_zero 0 0).1 (by decide),
   (river_snapping_not_found_raises grid_const300 0 0).2 ⟨0, 0, 300, 0⟩ (by decide)⟩

/-- C2 amended: the extension lookup is re-triggered by *any* ring
containing a threshold-passing cell, improving or not.  Concretely: if a
ring's qualifying cells are all strictly farther than the incoming best
`b0` (so the ring improves nothing and the best is unchanged), the scan
still resets `extra_depths` to `DEPTH_CHECK_MAP[depth]` as soon as the
ring contains any qualifying cell; only a ring with no qualifying cell
leaves the counter untouched. -/
theorem qualifying_ring_resets_extra (m : ℤ) (d : ℕ) (b0 : Cell) :
    ∀ (cells : List Cell) (x : Option ℕ),
      (∀ c ∈ cells, m ≤ c.ccar → b0.distSq < c.distSq) →
      cells.foldl (scan_cell m d) (some b0, x) =
        (some b0, if cells.any (qualifies m) then some (DEPTH_CHECK_MAP d) else x)
  | [], x, _ => by simp
  | c :: cs, x, hfar => by
    have htail : ∀ c2 ∈ cs, m ≤ c2.ccar → b0.distSq < c2.distSq :=
      fun c2 hc2 => hfar c2 (List.mem_cons_of_mem _ hc2)
    by_cases hq : m ≤ c.ccar
    · have hlt : ¬c.distSq ≤ b0.distSq := by
        have := hfar c (List.mem_cons_self c cs) hq
        omega
      have hstep : scan_cell m d (some b0, x) c =
          (some b0, some (DEPTH_CHECK_MAP d)) := by
        simp [scan_cell, hq, hlt]
      rw [List.foldl_cons, hstep,
        qualifying_ring_resets_extra m d b0 cs (some (DEPTH_CHECK_MAP d)) htail]
      simp [List.any_cons, qualifies, hq]
    · have hstep : scan_cell m d (some b0, x) c = (some b0, x) := by
        simp [scan_cell, hq]
      rw [List.foldl_cons, hstep, qualifying_ring_resets_extra m d b0 cs x htail]
      simp [List.any_cons, qualifies, hq]

/-- Witness for the C2 amended theorem: around center (0,0) on
`grid_reset`, ring 4's only qualifying cell (0, 200) is strictly farther
than the ring-3 best (0, 150), yet scanning ring 4 from
`extra_depths = 0` resets the counter to `DEPTH_CHECK_MAP[4] = 1`. -/
theorem qualifying_ring_resets_extra_witness :
    (read_ccar_square grid_reset 0 0 4 true).foldl (scan_cell 10 4)
        (some ⟨0, 150, 100, 22500⟩, some 0) =
      (some ⟨0, 150, 100, 22500⟩,
        if (read_ccar_square grid_reset 0 0 4 true).any (qualifies 10)
          then some (DEPTH_CHECK_MAP 4) else some 0) :=
  qualifying_ring_resets_extra 10 4 ⟨0, 150, 100, 22500⟩
    (read_ccar_square grid_reset 0 0 4 true) (some 0) (by decide)

set_option maxRecDepth 100000 in
/-- C2 counterexample: on `grid_reset` with center (0, 0) and
`min_ccar = 10`, ring 4 contains a qualifying cell but produces no new
best (the best through depth 4 equals the best through depth 3), yet the
full `max_depths = 20` search scans 121 cells — the rings 0..5, whose
sizes are 1+8+16+24+32+40.  Under the claim the budget committed at
ring 3 (`DEPTH_CHECK_MAP[3] = 1` extra ring) would be left unchanged by
the non-improving ring 4, stopping the scan after ring 4's 81st cell. -/
theorem extension_reset_by_nonimproving_ring_cex :
    (read_ccar_square grid_reset 0 0 4 true).any (qualifies 10) = true ∧
    closest_ccar_above_val grid_reset 0 0 10 4 =
      closest_ccar_above_val grid_reset 0 0 10 3 ∧
    (closest_scanned grid_reset 0 0 10 20).length = 121 := by
  decide

/-- C5 counterexample: on an all-sentinel raster every sampled value is
normalized to -999, and with the very low threshold `min_ccar = -999`
the sentinel center cell *does* qualify and is returned; likewise a
sentinel cell wins `largest_ccar_close_by` over a 9-cell scan, where it
is not the only cell scanned. -/
theorem sentinel_qualifies_at_low_threshold_cex :
    closest_ccar_above_val grid_nodata 0 0 (-999) 0 = some ⟨0, 0, -999, 0⟩ ∧
    largest_ccar_close_by grid_nodata 0 0 1 = some ⟨0, 0, -999, 0⟩ ∧
    (read_ccar_square grid_nodata 0 0 1 false).length = 9 := by
  decide

/-- C6 counterexample: in the spec's end-to-end scenario (resolution 50,
center (1000, 2000), `min_ccar = 200`) the search does *not* return the
value-250 cell at squared distance 2500 that the spec's expected literal
names — the value-250 cell (1050, 2050) actually lies at squared
distance 5000 (≈70.7), not 50. -/
theorem scenario_result_not_value_250_cex :
    ¬((closest_ccar_above_val grid_scenario 1000 2000 200 20).map
        (fun c => (c.ccar, c.distSq)) = some (250, 2500)) := by
  decide

/-- C6 amended: the scenario search returns the value-300 cell
(1000, 1950), the unique qualifying cell at true distance 50
(squared distance 2500): strictly smaller distance beats the value-250
cell at squared distance 5000. -/
theorem scenario_returns_value_300 :
    closest_ccar_above_val grid_scenario 1000 2000 200 20 =
      some ⟨1000, 1950, 300, 2500⟩ := by
  decide

theorem scan_cell_fst (m : ℤ) (d : ℕ) (s : Option Cell × Option ℕ) (c : Cell) :
    (scan_cell m d s c).1 =
      if qualifies m c then
        List.argAux (fun x y => closestKey x < closestKey y) s.1 c
      else s.1 := by
  rcases s with ⟨best, x⟩
  by_cases hq : m ≤ c.ccar
  · cases best with
    | none => simp [scan_cell, qualifies, hq, List.argAux]
    | some b =>
      have hkey : (closestKey c < closestKey b) ↔
          (c.distSq < b.distSq ∨ (c.distSq = b.distSq ∧ b.ccar < c.ccar)) := by
        simp only [closestKey, Prod.Lex.lt_iff]
        omega
      by_cases h1 : c.distSq ≤ b.distSq
      · by_cases h2 : c.distSq = b.distSq ∧ c.ccar ≤ b.ccar
        · have hnot : ¬closestKey c < closestKey b := by rw [hkey]; omega
          simp [scan_cell, qualifies, hq, h1, h2, List.argAux, hnot]
        · have hyes : closestKey c < closestKey b := by rw [hkey]; omega
          simp [scan_cell, qualifies, hq, h1, h2, List.argAux, hyes]
      · have hnot : ¬closestKey c < closestKey b := by rw [hkey]; omega
        simp [scan_cell, qualifies, hq, h1, List.argAux, hnot]
  · simp [scan_cell, qualifies, hq]

theorem foldl_scan_cell_fst (m : ℤ) (d : ℕ) :
    ∀ (cells : List Cell) (s : Option Cell × Option ℕ),
      (cells.foldl (scan_cell m d) s).1 =
        (cells.filter (qualifies m)).foldl
          (List.argAux fun x y => closestKey x < closestKey y) s.1
  | [], _ => rfl
  | c :: cs, s => by
    rw [List.foldl_cons, foldl_scan_cell_fst m d cs, scan_cell_fst,
      List.filter_cons]
    cases hqc : qualifies m c <;> simp [hqc]

theorem closest_loop_fst (grid : ℤ → ℤ → ℤ) (e n m : ℤ) :
    ∀ (ds : List ℕ) (s : Option Cell × Option ℕ),
      (closest_loop grid e n m ds s).1 =
        ((closest_scanned_loop grid e n m ds s).filter (qualifies m)).foldl
          (List.argAux fun x y => closestKey x < closestKey y) s.1
  | [], _ => rfl
  | d :: rest, s => by
    simp only [closest_loop, closest_scanned_loop]
    by_cases hstop : s.2 = some 0
    · simp [hstop]
    · simp only [if_neg hstop]
      rw [closest_loop_fst grid e n m rest, foldl_scan_cell_fst,
        List.filter_append, List.foldl_append]

/-- The nearest-qualifying search equals the `argmin` of the claimed
lexicographic key over the qualifying scanned cells (general form,
shared by several theorems below). -/
theorem closest_eq_argmin (grid : ℤ → ℤ → ℤ) (e n m md : ℤ) :
    closest_ccar_above_val grid e n m md =
      ((closest_scanned grid e n m md).filter (qualifies m)).argmin
        closestKey := by
  simp only [closest_ccar_above_val, closest_scanned, List.argmin]
  exact closest_loop_fst grid (base_round_50 e) (base_round_50 n) m
    (depthsList md) (none, none)

/-- C1: the cell returned by `closest_ccar_above_val` is the qualifying
scanned cell that is minimal under the lexicographic order (squared
distance, negated value, enumeration position): `List.argmin` keeps the
earliest element on key ties, so ties in both distance and value never
replace the incumbent best. -/
theorem closest_returns_lex_min_qualifying (grid : ℤ → ℤ → ℤ)
    (e n m md : ℤ) (hmd : md ≤ 20) :
    closest_ccar_above_val grid e n m md =
      ((closest_scanned grid e n m md).filter (qualifies m)).argmin
        closestKey :=
  closest_eq_argmin grid e n m md

/-- Witness for C1 on the end-to-end scenario raster. -/
theorem closest_returns_lex_min_qualifying_witness :
    (20 : ℤ) ≤ 20 ∧
    closest_ccar_above_val grid_scenario 1000 2000 200 20 =
      ((closest_scanned grid_scenario 1000 2000 200 20).filter
        (qualifies 200)).argmin closestKey :=
  ⟨le_refl 20,
   closest_returns_lex_min_qualifying grid_scenario 1000 2000 200 20
     (le_refl 20)⟩

theorem mem_intRange {a b x : ℤ} : x ∈ intRange a b ↔ a ≤ x ∧ x < b := by
  simp only [intRange, List.mem_map, List.mem_range]
  constructor
  · rintro ⟨i, hi, rfl⟩
    omega
  · rintro ⟨h1, h2⟩
    exact ⟨(x - a).toNat, by omega, by omega⟩

theorem largest_step_eq (s : Option Cell) (c : Cell) :
    largest_step s c =
      List.argAux (fun x y => largestKey x < largestKey y) s c := by
  cases s with
  | none => rfl
  | some b =>
    have hkey : (largestKey c < largestKey b) ↔
        (b.ccar < c.ccar ∨ (c.ccar = b.ccar ∧ c.distSq < b.distSq)) := by
      simp only [largestKey, Prod.Lex.lt_iff]
      omega
    by_cases h1 : b.ccar ≤ c.ccar
    · by_cases h2 : c.ccar = b.ccar ∧ b.distSq ≤ c.distSq
      · have hnot : ¬largestKey c < largestKey b := by rw [hkey]; omega
        simp [largest_step, h1, h2, List.argAux, hnot]
      · have hyes : largestKey c < largestKey b := by rw [hkey]; omega
        simp [largest_step, h1, h2, List.argAux, hyes]
    · have hnot : ¬largestKey c < largestKey b := by rw [hkey]; omega
      simp [largest_step, h1, List.argAux, hnot]

/-- The best-neighbor search equals the `argmin` of the claimed
lexicographic key over the full scanned square (general form). -/
theorem largest_eq_argmin (grid : ℤ → ℤ → ℤ) (e n dp : ℤ) :
    largest_ccar_close_by grid e n dp =
      (read_ccar_square grid (base_round_50 e) (base_round_50 n) dp
        false).argmin largestKey := by
  have hfun : largest_step =
      List.argAux fun x y => largestKey x < largestKey y :=
    funext fun s => funext fun c => largest_step_eq s c
  simp only [largest_ccar_close_by, List.argmin, hfun]

theorem read_ccar_square_full_ne_nil (grid : ℤ → ℤ → ℤ) (e n : ℤ)
    (d : ℕ) : read_ccar_square grid e n (d : ℤ) false ≠ [] := by
  unfold read_ccar_square
  by_cases hd : (d : ℤ) = 0
  · simp [hd]
  · simp only [if_neg hd, Bool.false_eq_true, if_false]
    intro hcontra
    rw [List.append_nil, List.flatMap_eq_nil_iff] at hcontra
    have hmem : -(d : ℤ) ∈ intRange (-(d : ℤ)) ((d : ℤ) + 1) := by
      rw [mem_intRange]
      omega
    have := hcontra _ hmem
    rw [List.map_eq_nil_iff] at this
    rw [this] at hmem
    exact List.not_mem_nil _ hmem

/-- C4: over the full `(2·depth+1)²` square, `largest_ccar_close_by`
returns the cell minimal under the lexicographic order (negated value,
squared distance, enumeration position) — i.e. strictly greater value
wins, then strictly smaller distance, then the earlier-enumerated cell
(`List.argmin` keeps the earliest element on key ties).  No threshold is
applied: for every depth `d ≥ 0` the scanned square is nonempty and a
result is returned. -/
theorem largest_returns_lex_max (grid : ℤ → ℤ → ℤ) (e n : ℤ) (d : ℕ) :
    largest_ccar_close_by grid e n (d : ℤ) =
      (read_ccar_square grid (base_round_50 e) (base_round_50 n) (d : ℤ)
        false).argmin largestKey ∧
    largest_ccar_close_by grid e n (d : ℤ) ≠ none := by
  refine ⟨largest_eq_argmin grid e n (d : ℤ), ?_⟩
  rw [largest_eq_argmin grid e n (d : ℤ), Ne, List.argmin_eq_none]
  exact read_ccar_square_full_ne_nil grid (base_round_50 e)
    (base_round_50 n) d

/-- C5 amended: the sentinel value is normalized to -999 before any
comparison, so (a) whenever `min_ccar > -999`, a returned cell of
`closest_ccar_above_val` passes the threshold and hence never carries
the normalized sentinel value, and (b) the cell returned by
`largest_ccar_close_by` has the maximum sampled value over the whole
scanned square, so a sentinel cell can only win when no scanned cell
has a value above -999 (in particular never when any ordinary positive
value is present). -/
theorem sentinel_excluded_above_sentinel_value (grid : ℤ → ℤ → ℤ)
    (e n m md dp : ℤ) (hm : -999 < m) :
    (∀ r, closest_ccar_above_val grid e n m md = some r →
      m ≤ r.ccar ∧ r.ccar ≠ -999) ∧
    (∀ r, largest_ccar_close_by grid e n dp = some r →
      ∀ c ∈ read_ccar_square grid (base_round_50 e) (base_round_50 n) dp
        false, c.ccar ≤ r.ccar) := by
  constructor
  · intro r hr
    rw [closest_eq_argmin] at hr
    have hopt : r ∈ List.argmin closestKey
        ((closest_scanned grid e n m md).filter (qualifies m)) := by
      simp [Option.mem_def, hr]
    have hmem := List.argmin_mem hopt
    have hq := (List.mem_filter.mp hmem).2
    have hle : m ≤ r.ccar := by simpa [qualifies] using hq
    exact ⟨hle, by omega⟩
  · intro r hr c hc
    rw [largest_eq_argmin] at hr
    have hopt : r ∈ List.argmin largestKey
        (read_ccar_square grid (base_round_50 e) (base_round_50 n) dp
          false) := by
      simp [Option.mem_def, hr]
    have hle := List.le_of_mem_argmin hc hopt
    simp only [largestKey, Prod.Lex.le_iff] at hle
    omega

/-- Witness for the C5 amended theorem on the scenario raster: the
returned value-300 cell passes the threshold 200 and dominates every
cell of the 3×3 square. -/
theorem sentinel_excluded_above_sentinel_value_witness :
    ((200 : ℤ) ≤ (300 : ℤ) ∧ (300 : ℤ) ≠ -999) ∧
    (∀ c ∈ read_ccar_square grid_scenario (base_round_50 1000)
      (base_round_50 2000) 1 false, c.ccar ≤ 300) := by
  have h := sentinel_excluded_above_sentinel_value grid_scenario
    1000 2000 200 20 1 (by norm_num)
  exact ⟨h.1 ⟨1000, 1950, 300, 2500⟩ (by decide),
    h.2 ⟨1000, 1950, 300, 2500⟩ (by decide)⟩

theorem mem_ringOff {k : ℕ} {p : ℤ × ℤ} :
    p ∈ ringOff k ↔
      (p.1.natAbs ≤ k ∧ p.2.natAbs ≤ k ∧
        (p.1.natAbs = k ∨ p.2.natAbs = k)) := by
  obtain ⟨a, b⟩ := p
  rcases Nat.eq_zero_or_pos k with hk | hk
  · subst hk
    simp [ringOff, Prod.ext_iff]
    omega
  · have hkz : ¬(k = 0) := by omega
    simp [ringOff, hkz, mem_intRange, Prod.ext_iff]
    constructor
    · rintro (⟨hb, rfl⟩ | ⟨hb, rfl⟩ | ⟨a1, h1, rfl, rfl⟩ | ⟨a1, h1, rfl, rfl⟩) <;>
        omega
    · intro h
      by_cases ha : a = -(k : ℤ) ∨ a = (k : ℤ)
      · rcases ha with rfl | rfl
        · exact Or.inl ⟨⟨by omega, by omega⟩, rfl⟩
        · exact Or.inr (Or.inl ⟨⟨by omega, by omega⟩, rfl⟩)
      · have hb : b = -(k : ℤ) ∨ b = (k : ℤ) := by omega
        rcases hb with rfl | rfl
        · exact Or.inr (Or.inr (Or.inl ⟨a, ⟨by omega, by omega⟩, rfl, rfl⟩))
        · exact Or.inr (Or.inr (Or.inr ⟨a, ⟨by omega, by omega⟩, rfl, rfl⟩))

theorem mem_fullOff {d : ℕ} {p : ℤ × ℤ} :
    p ∈ fullOff d ↔ (p.1.natAbs ≤ d ∧ p.2.natAbs ≤ d) := by
  obtain ⟨a, b⟩ := p
  simp [fullOff, mem_intRange, Prod.ext_iff]
  omega

theorem nodup_intRange {a b : ℤ} : (intRange a b).Nodup := by
  refine List.Nodup.map ?_ (List.nodup_range _)
  intro i j h
  simpa using h

theorem nodup_ringOff (k : ℕ) : (ringOff k).Nodup := by
  rcases Nat.eq_zero_or_pos k with hk | hk
  · subst hk
    simp [ringOff]
  · have hkz : ¬(k = 0) := by omega
    rw [ringOff, if_neg hkz]
    simp only [List.flatMap_cons, List.flatMap_nil, List.append_nil]
    have hcol : ∀ c : ℤ, (List.map (fun b2 => ((c, b2) : ℤ × ℤ))
        (intRange (-(k : ℤ)) (k + 1))).Nodup := by
      intro c
      refine List.Nodup.map ?_ nodup_intRange
      intro x y hxy
      exact (Prod.mk.injEq _ _ _ _ ▸ hxy : _ ∧ _).2
    have hrow : ∀ c : ℤ, (List.map (fun a2 => ((a2, c) : ℤ × ℤ))
        (intRange (-(k : ℤ) + 1) k)).Nodup := by
      intro c
      refine List.Nodup.map ?_ nodup_intRange
      intro x y hxy
      exact (Prod.mk.injEq _ _ _ _ ▸ hxy : _ ∧ _).1
    have hcolmem : ∀ (c : ℤ) (x : ℤ × ℤ),
        x ∈ List.map (fun b2 => ((c, b2) : ℤ × ℤ))
          (intRange (-(k : ℤ)) (k + 1)) → x.1 = c ∧ -(k : ℤ) ≤ x.2 ∧
            x.2 < (k : ℤ) + 1 := by
      intro c x hx
      rcases List.mem_map.mp hx with ⟨b2, hb2, rfl⟩
      exact ⟨rfl, (mem_intRange.mp hb2).1, (mem_intRange.mp hb2).2⟩
    have hrowmem : ∀ (c : ℤ) (x : ℤ × ℤ),
        x ∈ List.map (fun a2 => ((a2, c) : ℤ × ℤ))
          (intRange (-(k : ℤ) + 1) k) → x.2 = c ∧ -(k : ℤ) + 1 ≤ x.1 ∧
            x.1 < (k : ℤ) := by
      intro c x hx
      rcases List.mem_map.mp hx with ⟨a2, ha2, rfl⟩
      exact ⟨rfl, (mem_intRange.mp ha2).1, (mem_intRange.mp ha2).2⟩
    rw [List.nodup_append]
    refine ⟨?_, ?_, ?_⟩
    · rw [List.nodup_append]
      refine ⟨hcol _, hcol _, ?_⟩
      intro x hx1 hx2
      have h1 := (hcolmem _ x hx1).1
      have h2 := (hcolmem _ x hx2).1
      omega
    · rw [List.nodup_append]
      refine ⟨hrow _, hrow _, ?_⟩
      intro x hx1 hx2
      have h1 := (hrowmem _ x hx1).1
      have h2 := (hrowmem _ x hx2).1
      omega
    · intro x hx1 hx2
      rcases List.mem_append.mp hx1 with hc | hc <;>
        rcases List.mem_append.mp hx2 with hr | hr <;>
        · have h1 := (hcolmem _ x hc).1
          have h2 := (hrowmem _ x hr).2
          omega

theorem nodup_fullOff (d : ℕ) : (fullOff d).Nodup := by
  rw [fullOff, List.nodup_flatMap]
  constructor
  · intro a2 _
    refine List.Nodup.map ?_ nodup_intRange
    intro x y hxy
    exact ((Prod.mk.injEq _ _ _ _).mp hxy).2
  · refine List.Pairwise.imp ?_ nodup_intRange
    intro a1 a2 hne x hx1 hx2
    rcases List.mem_map.mp hx1 with ⟨b1, _, rfl⟩
    rcases List.mem_map.mp hx2 with ⟨b2, _, he⟩
    exact hne (((Prod.mk.injEq _ _ _ _).mp he).1.symm ▸ rfl)

theorem mem_unionOff {d : ℕ} {p : ℤ × ℤ} :
    p ∈ unionOff d ↔ (p.1.natAbs ≤ d ∧ p.2.natAbs ≤ d) := by
  rw [unionOff, List.mem_flatMap]
  constructor
  · rintro ⟨k, hk, hp⟩
    rw [List.mem_range] at hk
    have := mem_ringOff.mp hp
    omega
  · rintro ⟨h1, h2⟩
    refine ⟨max p.1.natAbs p.2.natAbs, ?_, mem_ringOff.mpr ?_⟩
    · rw [List.mem_range]
      omega
    · refine ⟨le_max_left _ _, le_max_right _ _, ?_⟩
      rcases Nat.le_total p.1.natAbs p.2.natAbs with hle | hle
      · right
        omega
      · left
        omega

theorem nodup_unionOff (d : ℕ) : (unionOff d).Nodup := by
  rw [unionOff, List.nodup_flatMap]
  refine ⟨fun k _ => nodup_ringOff k, ?_⟩
  refine List.Pairwise.imp ?_ (List.nodup_range _)
  intro k1 k2 hne x hx1 hx2
  have h1 := mem_ringOff.mp hx1
  have h2 := mem_ringOff.mp hx2
  omega


theorem points_ring (grid : ℤ → ℤ → ℤ) (e n : ℤ) (k : ℕ) :
    pointsOf (read_ccar_square grid e n (k : ℤ) true) =
      (ringOff k).map (offPoint e n) := by
  rcases Nat.eq_zero_or_pos k with hk | hk
  · subst hk
    simp [read_ccar_square, ringOff, pointsOf, offPoint]
  · have hkz : ¬((k : ℤ) = 0) := by omega
    have hkz2 : ¬(k = 0) := by omega
    rw [read_ccar_square, if_neg hkz, ringOff, if_neg hkz2]
    simp only [pointsOf, List.map_append, List.map_flatMap, List.map_map,
      if_pos, List.flatMap_cons, List.flatMap_nil, List.append_nil]
    rfl

theorem points_full (grid : ℤ → ℤ → ℤ) (e n : ℤ) (d : ℕ) :
    pointsOf (read_ccar_square grid e n (d : ℤ) false) =
      (fullOff d).map (offPoint e n) := by
  rcases Nat.eq_zero_or_pos d with hd | hd
  · subst hd
    simp [read_ccar_square, fullOff, pointsOf, offPoint, intRange,
      show List.range 1 = [0] from rfl]
  · have hdz : ¬((d : ℤ) = 0) := by omega
    rw [read_ccar_square, if_neg hdz, fullOff]
    simp only [pointsOf, List.map_append, List.map_flatMap, List.map_map,
      Bool.false_eq_true, if_false, List.append_nil]
    rfl

theorem offPoint_injective (e n : ℤ) : Function.Injective (offPoint e n) := by
  rintro ⟨a1, b1⟩ ⟨a2, b2⟩ h
  simp only [offPoint, Prod.mk.injEq] at h
  simp only [Prod.mk.injEq]
  omega

theorem length_intRange (a b : ℤ) : (intRange a b).length = (b - a).toNat := by
  simp [intRange]

theorem length_fullOff (d : ℕ) : (fullOff d).length = (2 * d + 1) ^ 2 := by
  rw [fullOff, List.length_flatMap]
  have hm : List.map (List.length ∘ fun a =>
        List.map (fun b => ((a, b) : ℤ × ℤ)) (intRange (-(d : ℤ)) (d + 1)))
        (intRange (-(d : ℤ)) (d + 1)) =
      List.map (fun _ => 2 * d + 1) (intRange (-(d : ℤ)) (d + 1)) := by
    apply List.map_congr_left
    intro a _
    simp only [Function.comp_apply, List.length_map, length_intRange]
    omega
  rw [hm, List.map_const', List.sum_replicate, smul_eq_mul,
    length_intRange, pow_two]
  have : ((d : ℤ) + 1 - -(d : ℤ)).toNat = 2 * d + 1 := by omega
  rw [this]

theorem length_read_ccar_square_full (grid : ℤ → ℤ → ℤ) (e n : ℤ)
    (d : ℕ) :
    (read_ccar_square grid e n (d : ℤ) false).length = (2 * d + 1) ^ 2 := by
  have h1 : (read_ccar_square grid e n (d : ℤ) false).length =
      (pointsOf (read_ccar_square grid e n (d : ℤ) false)).length := by
    simp [pointsOf]
  rw [h1, points_full, List.length_map, length_fullOff]

/-- C3: for every center and every depth `d ≤ 20`, the union of the
perimeter-only enumerations for depths `0..d` visits no point twice and
covers, as a set of `(easting, northing)` points, exactly the full
`(2d+1)²`-cell square enumeration, which itself has no duplicates — no
omissions and no duplicates. -/
theorem ring_union_eq_full_square (grid : ℤ → ℤ → ℤ) (e n : ℤ) (d : ℕ)
    (hd : d ≤ 20) :
    (pointsOf ((List.range (d + 1)).flatMap fun k =>
        read_ccar_square grid e n (k : ℤ) true)).Nodup ∧
    (pointsOf ((List.range (d + 1)).flatMap fun k =>
        read_ccar_square grid e n (k : ℤ) true)).toFinset =
      (pointsOf (read_ccar_square grid e n (d : ℤ) false)).toFinset ∧
    (pointsOf (read_ccar_square grid e n (d : ℤ) false)).Nodup ∧
    (read_ccar_square grid e n (d : ℤ) false).length = (2 * d + 1) ^ 2 := by
  have hu : pointsOf ((List.range (d + 1)).flatMap fun k =>
      read_ccar_square grid e n (k : ℤ) true) =
      (unionOff d).map (offPoint e n) :=
    calc
      pointsOf ((List.range (d + 1)).flatMap fun k =>
          read_ccar_square grid e n (k : ℤ) true) =
          (List.range (d + 1)).flatMap fun k =>
            pointsOf (read_ccar_square grid e n (k : ℤ) true) := by
        simp [pointsOf, List.map_flatMap]
      _ = (List.range (d + 1)).flatMap fun k =>
            (ringOff k).map (offPoint e n) := by
        congr 1
        funext k
        exact points_ring grid e n k
      _ = (unionOff d).map (offPoint e n) := by
        rw [unionOff, List.map_flatMap]
  have hf := points_full grid e n d
  refine ⟨?_, ?_, ?_, ?_⟩
  · rw [hu]
    exact List.Nodup.map (offPoint_injective e n) (nodup_unionOff d)
  · rw [hu, hf]
    ext p
    simp only [List.mem_toFinset, List.mem_map]
    constructor
    · rintro ⟨q, hq, rfl⟩
      exact ⟨q, mem_fullOff.mpr (mem_unionOff.mp hq), rfl⟩
    · rintro ⟨q, hq, rfl⟩
      exact ⟨q, mem_unionOff.mpr (mem_fullOff.mp hq), rfl⟩
  · rw [hf]
    exact List.Nodup.map (offPoint_injective e n) (nodup_fullOff d)
  · exact length_read_ccar_square_full grid e n d

/-- Witness for C3 at depth 2 on a concrete raster and center. -/
theorem ring_union_eq_full_square_witness :
    2 ≤ 20 ∧
    ((pointsOf ((List.range (2 + 1)).flatMap fun k =>
        read_ccar_square grid_zero 0 0 (k : ℤ) true)).Nodup ∧
    (pointsOf ((List.range (2 + 1)).flatMap fun k =>
        read_ccar_square grid_zero 0 0 (k : ℤ) true)).toFinset =
      (pointsOf (read_ccar_square grid_zero 0 0 (2 : ℤ) false)).toFinset ∧
    (pointsOf (read_ccar_square grid_zero 0 0 (2 : ℤ) false)).Nodup ∧
    (read_ccar_square grid_zero 0 0 (2 : ℤ) false).length = (2 * 2 + 1) ^ 2) :=
  ⟨by norm_num, ring_union_eq_full_square grid_zero 0 0 2 (by norm_num)⟩
